import Mathlib

/-!
Verification of the RSA implementation in `src/RSA/PlainRSA.py` (class
`RsaKeyPair`).

The Python code is shallowly embedded below.  Python's arbitrary-precision
non-negative integers are modelled by `Nat` (all values reaching the
functions under verification are non-negative; the one intermediate that can
go negative, `td2` in `get_d`, is modelled by `Int`).  Python strings are
modelled as lists of character code points (`List Nat`).  A `raise` is
modelled by returning `Except.error` with a constructor naming the raise
site; a Python runtime error (division by zero, missing attribute) gets its
own constructor.  `while` loops are modelled either by well-founded
recursion or by structural recursion on an explicit fuel argument that is
provably larger than the number of iterations the loop performs (so that
the kernel can evaluate the definitions on concrete inputs); every fuel
value chosen is justified by a lemma below, and running out of fuel
produces the dedicated marker `Err.fuelExhausted`, which no theorem in this
file ever equates with genuine behaviour.
-/

set_option maxRecDepth 40000

deriving instance DecidableEq for Except

/-- Error outcomes of the Python class.  The first nine constructors name
the error conditions of the specification's taxonomy (section 7); the code
itself only ever raises `ValueError`s corresponding to `keyTooSmall`,
`missingPublicParameters`, `keyConsistencyFailure`, `messageTooLarge` and
`encryptionVerificationFailed`, while `privateKeyRequired`,
`unsupportedCharacter`, `exponentSearchExhausted` and `noInverseExists` are
never produced by any code path (the constructors exist so that statements
about them can be written down).  `zeroDivisionError` and `attributeError`
model the Python runtime errors `ZeroDivisionError` and `AttributeError`.
`chrValueError` models `ValueError` raised by `chr` on an out-of-range code
point.  `fuelExhausted` is the out-of-fuel marker described above. -/
inductive Err where
  | keyTooSmall
  | missingPublicParameters
  | keyConsistencyFailure
  | messageTooLarge
  | privateKeyRequired
  | unsupportedCharacter
  | encryptionVerificationFailed
  | exponentSearchExhausted
  | noInverseExists
  | zeroDivisionError
  | attributeError
  | chrValueError
  | fuelExhausted
deriving DecidableEq

/-! ### Decimal digit strings

`str` applied to a non-negative integer and `int` applied to a digit string
are modelled on lists of decimal digit values (most significant first). -/

/-- Big-endian decimal digits of a positive number, by repeated division by
ten.  The first argument is fuel; `decDigitsAux n n` never runs out because
the value shrinks at least as fast as the fuel (see `decDigitsAux_eq`). -/
def decDigitsAux : Nat → Nat → List Nat
  | _, 0 => []
  | 0, _ + 1 => []
  | fuel + 1, m + 1 => decDigitsAux fuel ((m + 1) / 10) ++ [(m + 1) % 10]

/-- Python `str(n)` for a non-negative integer `n`, as the list of decimal
digit values: `strOfNat 0 = [0]`, otherwise the big-endian digits. -/
def strOfNat (n : Nat) : List Nat :=
  if n = 0 then [0] else decDigitsAux n n

/-- Python `int(s)` on a decimal digit string, parsing left to right. -/
def intOfDec (l : List Nat) : Nat := l.foldl (fun a d => 10 * a + d) 0

/-- Python `str(c).zfill(4)`: pad the digit string on the left with zeros
to length four (a longer string is returned unchanged, exactly as
`zfill` behaves). -/
def zfill4 (ds : List Nat) : List Nat := List.replicate (4 - ds.length) 0 ++ ds

/-! ### The codec (`stringToNumber` / `numberToString`) -/

/-- `RsaKeyPair.stringToNumber`: prefix the marker digits `1421`, then for
each character append `str(ord(c)).zfill(4)`, and parse the whole digit
string as one integer.  Note the source performs no range check on the
code points. -/
def stringToNumber (msg : List Nat) : Nat :=
  intOfDec ([1, 4, 2, 1] ++ (msg.map (fun c => zfill4 (strOfNat c))).flatten)

/-- Python `chr`: identity on valid code points, `ValueError` above
`0x10FFFF` (Python's `chr` accepts every code point below `0x110000`,
surrogates included). -/
def pychr (c : Nat) : Except Err Nat :=
  if c < 1114112 then .ok c else .error .chrValueError

/-- The `for n in range(len(msg)//4)` loop of `numberToString`, appending
`chr(int(msg[n*4 : n*4+4]))` for each index of the given index list. -/
def buildStr (D : List Nat) : List Nat → Except Err (List Nat)
  | [] => .ok []
  | i :: is =>
    match pychr (intOfDec ((D.drop (4 * i)).take 4)) with
    | .error e => .error e
    | .ok c =>
      match buildStr D is with
      | .error e => .error e
      | .ok rest => .ok (c :: rest)

/-- `RsaKeyPair.numberToString`: stringify the integer, strip a leading
`1421` if present, then decode groups of four digits. -/
def numberToString (m : Nat) : Except Err (List Nat) :=
  let D0 := strOfNat m
  let D := if D0.take 4 = [1, 4, 2, 1] then D0.drop 4 else D0
  buildStr D (List.range (D.length / 4))

/-! ### `factors` and `get_e` -/

/-- Integer square root, as the largest `k ≤ n` with `k * k ≤ n`, written
as an executable definition (`isqrt_eq_sqrt` below identifies it with
`Nat.sqrt`).  It models `int(pow(n, 0.5))` of the source: for every
argument `factors` is actually called with (`n ≤ 9999`, via `get_e`),
IEEE-754 double sqrt is exactly enough for `int(pow(n, 0.5) + 1)` to equal
`isqrt n + 1`, so no floating-point behaviour is lost on the relevant
domain. -/
def isqrt (n : Nat) : Nat :=
  ((List.range (n + 1)).filter (fun k => k * k ≤ n)).length - 1

/-- `RsaKeyPair.factors`: all divisor pairs `[i, n // i]` for `i` from `1`
to `int(pow(n, 0.5))`.  The Python result is a `set`; only membership is
ever used (`get_e` asks whether some member divides `phi`), so a list with
duplicates is a faithful model. -/
def factors (n : Nat) : List Nat :=
  ((List.range' 1 (isqrt n)).filter (fun i => n % i = 0)).flatMap
    (fun i => [i, n / i])

/-- `RsaKeyPair.get_e`: the first odd `i` in `3, 5, ..., 9999` none of
whose divisors greater than one divides `phi`; `none` models Python's
implicit `None` when the loop exhausts. -/
def get_e (phi : Nat) : Option Nat :=
  (List.range' 3 4999 2).find? (fun i =>
    ((factors i).filter (fun j => j ≠ 1)).all (fun j => ¬ phi % j = 0))

/-! ### `get_d` -/

/-- The `while td2 < 0: td2 += self.phi` loop.  The first argument is
fuel; `get_d` calls it with fuel exceeding the iteration count whenever
`phi > 0` (each iteration adds `phi ≥ 1`), see `addUntilNonneg_nonneg`.
For `phi ≤ 0` and a negative argument the Python loop never terminates;
that situation is unreachable from `get_d` (shown by the theorems below,
which never rely on the out-of-fuel value). -/
def addUntilNonneg : Nat → Int → Int → Int
  | 0, _, t => t
  | fuel + 1, phi, t => if t < 0 then addUntilNonneg fuel phi (t + phi) else t

/-- The `while t1[1] != 1` loop of `get_d`.  The pair `t1` stays
non-negative throughout (its entries are remainders), so it is a
`Nat × Nat`; the pair `t2` can go negative transiently inside an
iteration, so it is an `Int × Int`.  `tb1 = t1[0] // t1[1]` raises
`ZeroDivisionError` when `t1[1] = 0`.  Structural fuel again: the second
component of `t1` strictly decreases every iteration, so `e + 2` suffices
(see `get_d` and the theorems below). -/
def get_d_loop (phi : Nat) : Nat → Nat × Nat → Int × Int → Except Err Int
  | 0, _, _ => .error .fuelExhausted
  | fuel + 1, t1, t2 =>
    if t1.2 = 1 then .ok t2.2
    else if t1.2 = 0 then .error .zeroDivisionError
    else
      let tb1 := t1.1 / t1.2
      let tb2 := tb1 * t1.2
      let tb3 := (tb1 : Int) * t2.2
      let td1 := t1.1 - tb2
      let td2 := addUntilNonneg ((t2.1 - tb3).natAbs + 1) (phi : Int) (t2.1 - tb3)
      get_d_loop phi fuel (t1.2, td1) (t2.2, td2)

/-- `RsaKeyPair.get_d`: extended-Euclid style computation of the modular
inverse of `e` modulo `phi`, exactly as the source writes it. -/
def get_d (phi e : Nat) : Except Err Int :=
  get_d_loop phi (e + 2) (phi, e) ((phi : Int), 1)

/-! ### `is_prime` (Miller-Rabin) -/

/-- The `while r & 1 == 0: s += 1; r //= 2` loop splitting out powers of
two.  Fuel-based; `is_prime` passes the initial `r` itself as fuel, which
is sufficient since the value halves every iteration (see `split2_spec`). -/
def split2 : Nat → Nat → Nat → Nat × Nat
  | 0, s, r => (s, r)
  | fuel + 1, s, r => if r % 2 = 0 then split2 fuel (s + 1) (r / 2) else (s, r)

/-- The inner squaring loop of one Miller-Rabin round: starting from
`j = 1`, square `x` while `j < s` and `x ≠ n - 1`, answering `false`
(composite) if `x` hits `1`; after the loop the round passes iff
`x = n - 1`.  The fuel is the exact remaining iteration budget `s - 1`. -/
def mrLoop (n : Nat) : Nat → Nat → Bool
  | 0, x => x = n - 1
  | fuel + 1, x =>
    if x = n - 1 then true
    else
      let x2 := x ^ 2 % n
      if x2 = 1 then false else mrLoop n fuel x2

/-- One Miller-Rabin round for the witness `a`: compute `x = a^r mod n`
and accept immediately if `x ∈ {1, n-1}`, otherwise run the squaring
loop. -/
def millerRound (n r s a : Nat) : Bool :=
  let x := a ^ r % n
  if x = 1 ∨ x = n - 1 then true else mrLoop n (s - 1) x

/-- `RsaKeyPair.is_prime`.  The `k` random draws
`a = randrange(2, n - 1)` of the source are supplied as the list `ws`
(one entry per round); the claims quantify over all draws in the range
`[2, n-2]`, which is exactly the range `randrange(2, n - 1)` samples. -/
def is_prime (n : Nat) (ws : List Nat) : Bool :=
  if n = 2 ∨ n = 3 then true
  else if n ≤ 1 ∨ n % 2 = 0 then false
  else
    let sr := split2 (n - 1) 0 (n - 1)
    ws.all (fun a => millerRound n sr.2 sr.1 a)

/-! ### `bitcount` -/

/-- Phase one of `bitcount`: `a = 1; while 1 << a <= n: a <<= 1`.
Fuel-based with fuel `n + 1`, sufficient because `a` at least doubles each
iteration (see `bitcountProbe_spec`). -/
def bitcountProbe : Nat → Nat → Nat → Nat
  | 0, _, a => a
  | fuel + 1, n, a => if 2 ^ a ≤ n then bitcountProbe fuel n (2 * a) else a

/-- Phase two of `bitcount`:
`while a > 1: a >>= 1; if n >= 1 << a: n >>= a; s += a` followed by
`if n > 0: s += 1`.  Fuel-based; `a` halves each iteration, so any fuel
with `a ≤ 2 ^ fuel` suffices (see `bitcountShrink_spec`). -/
def bitcountShrink : Nat → Nat → Nat → Nat → Nat
  | 0, _, n, s => if 0 < n then s + 1 else s
  | fuel + 1, a, n, s =>
    if 1 < a then
      let a2 := a / 2
      if 2 ^ a2 ≤ n then bitcountShrink fuel a2 (n / 2 ^ a2) (s + a2)
      else bitcountShrink fuel a2 n s
    else if 0 < n then s + 1 else s

/-- `RsaKeyPair.bitcount`: the number of bits of `n` (`0 ↦ 0`), computed
by the source's doubling/halving scheme.  `bitcount_eq_size` below proves
it equal to the mathematical bit length `Nat.size`. -/
def bitcount (n : Nat) : Nat :=
  let a := bitcountProbe (n + 1) n 1
  bitcountShrink a a n 0

/-! ### The key-pair object and the cipher operations -/

/-- The `RsaKeyPair` instance.  In public-only mode the attributes `p`,
`q`, `phi` and `d` are never set on the Python object; they are modelled
as `Option` fields holding `none`, and reading `none` is the
`AttributeError` Python raises on a missing attribute. -/
structure RsaKeyPair where
  only_pubkey : Bool
  e : Nat
  n : Nat
  nbits : Nat
  p : Option Nat
  q : Option Nat
  phi : Option Nat
  d : Option Nat
deriving DecidableEq

/-- `RsaKeyPair._encrypt`: reject a message at least `nbits` bits wide,
otherwise `pow(msg, e, n)`. -/
def rsaRawEncrypt (kp : RsaKeyPair) (msg : Nat) : Except Err Nat :=
  if kp.nbits ≤ bitcount msg then .error .messageTooLarge
  else .ok (msg ^ kp.e % kp.n)

/-- `RsaKeyPair._decrypt`.  The blinding draw
`r = self.sec.randint(10^46, 10^49)` is supplied as the argument `r` (the
claims quantify over the drawn value).  On the blinded path the source
computes `s = pow(r, e, n)`, `X = cipher * s % n`, `Y = pow(X, d, n)` and
returns `(Y // r) % n`; `Y // r` is Python floor division, which raises
`ZeroDivisionError` for `r = 0` (never drawn, since the range starts at
`10^46`).  Reading the attribute `d` fails on a public-only key. -/
def rsaRawDecrypt (kp : RsaKeyPair) (r cipher : Nat) : Except Err Nat :=
  if 1023 ≤ kp.nbits then
    let s := r ^ kp.e % kp.n
    let X := cipher * s % kp.n
    match kp.d with
    | none => .error .attributeError
    | some d =>
      let Y := X ^ d % kp.n
      if r = 0 then .error .zeroDivisionError else .ok (Y / r % kp.n)
  else
    match kp.d with
    | none => .error .attributeError
    | some d => .ok (cipher ^ d % kp.n)

/-- `RsaKeyPair.quick_test`: check `(e * d) % phi == 1`, then encrypt and
decrypt the sentinel `12` and check the round trip.  `r` is the blinding
draw made inside the `_decrypt` call. -/
def quick_test (kp : RsaKeyPair) (r : Nat) : Except Err Unit :=
  match kp.phi, kp.d with
  | some phi, some d =>
    if kp.e * d % phi ≠ 1 then .error .keyConsistencyFailure
    else
      match rsaRawEncrypt kp 12 with
      | .error e => .error e
      | .ok cipher =>
        match rsaRawDecrypt kp r cipher with
        | .error e => .error e
        | .ok m => if m ≠ 12 then .error .keyConsistencyFailure else .ok ()
  | _, _ => .error .attributeError

/-- `RsaKeyPair.__init__` on the private-mode path with all five numeric
parameters `p, q, e, n, d` supplied (and non-zero, so that Python's
truthiness tests take the `if p:` branches; every key considered in this
file is of that form).  The source then computes
`phi = (p-1)*(q-1)`, `nbits = bitcount(n)` and runs `quick_test`; `r_qt`
is the blinding draw made inside `quick_test`'s decryption. -/
def rsaInitPrivate (p q e n d keylength : Nat) (ignore_warning : Bool)
    (r_qt : Nat) : Except Err RsaKeyPair :=
  if keylength < 1024 ∧ ignore_warning = false then .error .keyTooSmall
  else
    let kp : RsaKeyPair :=
      ⟨false, e, n, bitcount n, some p, some q, some ((p - 1) * (q - 1)), some d⟩
    match quick_test kp r_qt with
    | .error e => .error e
    | .ok _ => .ok kp

/-- `RsaKeyPair.__init__` on the public-only path: requires truthy `e` and
`n` (Python's `not e or not n` treats `0` as missing), sets only `e`, `n`
and `nbits`, and runs no self-test. -/
def rsaInitPublic (e n keylength : Nat) (ignore_warning : Bool) :
    Except Err RsaKeyPair :=
  if keylength < 1024 ∧ ignore_warning = false then .error .keyTooSmall
  else if e = 0 ∨ n = 0 then .error .missingPublicParameters
  else .ok ⟨true, e, n, bitcount n, none, none, none, none⟩

/-- `RsaKeyPair.encrypt`: encode the string, `_encrypt` it, and (in
private mode) check that `_decrypt` recovers the encoded value.  `r` is
the blinding draw made inside that internal `_decrypt` call. -/
def rsaEncrypt (kp : RsaKeyPair) (r : Nat) (msg : List Nat) : Except Err Nat :=
  let toc := stringToNumber msg
  match rsaRawEncrypt kp toc with
  | .error e => .error e
  | .ok c =>
    if kp.only_pubkey = false then
      match rsaRawDecrypt kp r c with
      | .error e => .error e
      | .ok m => if m ≠ toc then .error .encryptionVerificationFailed else .ok c
    else .ok c

/-- `RsaKeyPair.decrypt`: `_decrypt` then `numberToString`.  `r` is the
blinding draw made inside `_decrypt`. -/
def rsaDecrypt (kp : RsaKeyPair) (r cipher : Nat) : Except Err (List Nat) :=
  match rsaRawDecrypt kp r cipher with
  | .error e => .error e
  | .ok m => numberToString m

/-! ### Specification-side definitions

The next three definitions are written from the words of claim C10 (not
from the source); `numberToString` is compared against them. -/

/-- Modelled from the claim: decode a decimal digit string left to right
in non-overlapping groups of four, each group read as one code point,
silently discarding the trailing `length mod 4` leftover digits. -/
def decodeChunks : List Nat → List Nat
  | d1 :: d2 :: d3 :: d4 :: rest =>
    (1000 * d1 + 100 * d2 + 10 * d3 + d4) :: decodeChunks rest
  | _ => []

/-- Modelled from the claim: strip a leading `1421` if present. -/
def dropMarker (D : List Nat) : List Nat :=
  if D.take 4 = [1, 4, 2, 1] then D.drop 4 else D

/-- Modelled from the claim: the decode behaviour C10 ascribes to
`numberToString` on an arbitrary non-negative integer. -/
def specDecode (m : Nat) : List Nat := decodeChunks (dropMarker (strOfNat m))

/-- The private-key invariants of the data model (specification section
3): distinct primes, `n = p*q`, `phi = (p-1)*(q-1)`, `(e*d) mod phi = 1`,
`nbits = bitcount n`, all fields present. -/
def ValidPrivateKey (kp : RsaKeyPair) : Prop :=
  kp.only_pubkey = false ∧
  ∃ p q d, kp.p = some p ∧ kp.q = some q ∧ kp.d = some d ∧
    kp.phi = some ((p - 1) * (q - 1)) ∧
    p.Prime ∧ q.Prime ∧ p ≠ q ∧ kp.n = p * q ∧
    kp.e * d % ((p - 1) * (q - 1)) = 1 ∧ kp.nbits = bitcount kp.n

/-! ### Concrete keys used by witnesses and counterexamples -/

/-- A 1024-bit modulus chosen so that the blinded decryption path is
concretely computable: `N0 = 1421 * 10^305 - 10^48`. -/
def N0 : Nat := 1421 * 10 ^ 305 - 10 ^ 48

/-- A 64-character plaintext, all code points zero. -/
def s0 : List Nat := List.replicate 64 0

/-- The key the constructor builds from
`RsaKeyPair(p=3, q=5, e=1, n=N0, d=1)`: `phi = 8`, `nbits = 1024`.  The
constructor accepts it (`quick_test` passes for every blinding draw in
range because `12 * r < N0`), and `nbits ≥ 1023` puts decryption on the
blinded path. -/
def kp0 : RsaKeyPair := ⟨false, 1, N0, 1024, some 3, some 5, some 8, some 1⟩

/-- The key built from `RsaKeyPair(p=61, q=53, e=7, n=3233, d=1783)`
(the toy key of specification section 8): `phi = 3120`, `nbits = 12`. -/
def kpF : RsaKeyPair := ⟨false, 7, 3233, 12, some 61, some 53, some 3120, some 1783⟩

/-- The key built from `RsaKeyPair(e=7, n=3233, only_pubkey=True)`. -/
def kpPub : RsaKeyPair := ⟨true, 7, 3233, 12, none, none, none, none⟩

/-! ## Decimal digit lemmas -/

theorem decDigitsAux_eq (fuel n : Nat) (h : n ≤ fuel) :
    decDigitsAux fuel n = (Nat.digits 10 n).reverse := by
  induction fuel generalizing n with
  | zero =>
    have hn : n = 0 := by omega
    subst hn
    simp [decDigitsAux]
  | succ f ih =>
    match n with
    | 0 => simp [decDigitsAux]
    | m + 1 =>
      have hdiv : (m + 1) / 10 < m + 1 := Nat.div_lt_self (Nat.succ_pos m) (by norm_num)
      rw [decDigitsAux, ih ((m + 1) / 10) (by omega),
        Nat.digits_def' (by norm_num : (1:Nat) < 10) (Nat.succ_pos m)]
      simp

theorem strOfNat_eq (n : Nat) (h : n ≠ 0) :
    strOfNat n = (Nat.digits 10 n).reverse := by
  rw [strOfNat, if_neg h, decDigitsAux_eq n n le_rfl]

theorem strOfNat_lt (n : Nat) : ∀ d ∈ strOfNat n, d < 10 := by
  intro d hd
  by_cases h : n = 0
  · subst h; simp [strOfNat] at hd; omega
  · rw [strOfNat_eq n h, List.mem_reverse] at hd
    exact Nat.digits_lt_base (by norm_num) hd

theorem intOfDec_go (l : List Nat) (a : Nat) :
    l.foldl (fun a d => 10 * a + d) a = a * 10 ^ l.length + intOfDec l := by
  induction l generalizing a with
  | nil => simp [intOfDec]
  | cons d t ih =>
    simp only [List.foldl_cons, intOfDec, List.length_cons]
    rw [ih (10 * a + d), Nat.mul_zero, Nat.zero_add, ih d]
    ring

theorem intOfDec_cons (d : Nat) (t : List Nat) :
    intOfDec (d :: t) = d * 10 ^ t.length + intOfDec t := by
  rw [intOfDec, List.foldl_cons]
  simpa using intOfDec_go t d

theorem intOfDec_eq_ofDigits (l : List Nat) :
    intOfDec l = Nat.ofDigits 10 l.reverse := by
  induction l with
  | nil => simp [intOfDec]
  | cons d t ih =>
    rw [intOfDec_cons, ih, List.reverse_cons, Nat.ofDigits_append,
      Nat.ofDigits_singleton, List.length_reverse]
    ring

theorem intOfDec_lt (l : List Nat) (h : ∀ d ∈ l, d < 10) :
    intOfDec l < 10 ^ l.length := by
  induction l with
  | nil => simp [intOfDec]
  | cons d t ih =>
    rw [intOfDec_cons, List.length_cons, pow_succ]
    have hd : d < 10 := h d (List.mem_cons_self d t)
    have ht : intOfDec t < 10 ^ t.length := ih fun x hx => h x (List.mem_cons_of_mem d hx)
    calc d * 10 ^ t.length + intOfDec t
        < d * 10 ^ t.length + 10 ^ t.length := by omega
      _ = (d + 1) * 10 ^ t.length := by ring
      _ ≤ 10 * 10 ^ t.length := Nat.mul_le_mul_right _ (by omega)
      _ = 10 ^ t.length * 10 := by ring

theorem strOfNat_intOfDec (a : Nat) (l : List Nat) (h0 : a ≠ 0) (ha : a < 10)
    (hl : ∀ d ∈ l, d < 10) :
    strOfNat (intOfDec (a :: l)) = a :: l := by
  have hrev : Nat.digits 10 (Nat.ofDigits 10 ((a :: l).reverse)) = (a :: l).reverse := by
    apply Nat.digits_ofDigits 10 (by norm_num)
    · intro x hx
      rw [List.mem_reverse] at hx
      rcases List.mem_cons.mp hx with h | h
      · omega
      · exact hl x h
    · intro hne
      have h1 : (a :: l).reverse.getLast? = some a := by
        rw [List.reverse_cons, List.getLast?_concat]
      have h2 := List.getLast?_eq_getLast_of_ne_nil hne
      rw [h1] at h2
      have h3 : (a :: l).reverse.getLast hne = a := by
        exact (Option.some.injEq _ _).mp h2.symm
      rw [h3]
      exact h0
  have hne : intOfDec (a :: l) ≠ 0 := by
    intro hz
    rw [intOfDec_eq_ofDigits] at hz
    rw [hz] at hrev
    simp at hrev
  rw [strOfNat_eq _ hne, intOfDec_eq_ofDigits, hrev, List.reverse_reverse]

theorem intOfDec_replicate_zero (k : Nat) (l : List Nat) :
    intOfDec (List.replicate k 0 ++ l) = intOfDec l := by
  induction k with
  | zero => simp
  | succ m ih =>
    rw [List.replicate_succ, List.cons_append, intOfDec_cons]
    simpa using ih

theorem intOfDec_strOfNat (n : Nat) : intOfDec (strOfNat n) = n := by
  by_cases h : n = 0
  · subst h; simp [strOfNat, intOfDec]
  · rw [strOfNat_eq n h, intOfDec_eq_ofDigits, List.reverse_reverse,
      Nat.ofDigits_digits]

/-! ## Codec lemmas -/

theorem strOfNat_length_le (c : Nat) (h : c < 10000) : (strOfNat c).length ≤ 4 := by
  by_cases hc : c = 0
  · subst hc; simp [strOfNat]
  · rw [strOfNat_eq c hc, List.length_reverse,
      Nat.digits_len 10 c (by norm_num) hc]
    have := Nat.log_lt_of_lt_pow hc (show c < 10 ^ 4 by omega)
    omega

theorem zfill4_length (ds : List Nat) (h : ds.length ≤ 4) :
    (zfill4 ds).length = 4 := by
  rw [zfill4, List.length_append, List.length_replicate]
  omega

theorem zfill4_lt (ds : List Nat) (h : ∀ d ∈ ds, d < 10) :
    ∀ d ∈ zfill4 ds, d < 10 := by
  intro d hd
  rcases List.mem_append.mp hd with h1 | h1
  · have := List.eq_of_mem_replicate h1
    omega
  · exact h d h1

theorem intOfDec_zfill4 (c : Nat) : intOfDec (zfill4 (strOfNat c)) = c := by
  rw [zfill4, intOfDec_replicate_zero, intOfDec_strOfNat]

theorem buildStr_shift (d1 d2 d3 d4 : Nat) (rest : List Nat) (is : List Nat) :
    buildStr (d1 :: d2 :: d3 :: d4 :: rest) (is.map Nat.succ) = buildStr rest is := by
  induction is with
  | nil => rfl
  | cons i t ih =>
    rw [List.map_cons, buildStr, buildStr]
    have hdrop : (d1 :: d2 :: d3 :: d4 :: rest).drop (4 * Nat.succ i) = rest.drop (4 * i) := by
      have h4 : 4 * Nat.succ i = 4 * i + 4 := by omega
      rw [h4]
      rfl
    rw [hdrop, ih]

theorem decode4_val (a b c d : Nat) :
    intOfDec [a, b, c, d] = 1000 * a + 100 * b + 10 * c + d := by
  simp [intOfDec]
  ring

theorem buildStr_cons_ok (D : List Nat) (i : Nat) (is : List Nat) (c : Nat)
    (h : pychr (intOfDec ((D.drop (4 * i)).take 4)) = .ok c) :
    buildStr D (i :: is) =
      match buildStr D is with
      | .error e => .error e
      | .ok rest => .ok (c :: rest) := by
  rw [buildStr, h]

theorem buildStr_chunks (D : List Nat) (hd : ∀ d ∈ D, d < 10) :
    buildStr D (List.range (D.length / 4)) = .ok (decodeChunks D) := by
  generalize hn : D.length = n
  induction n using Nat.strong_induction_on generalizing D with
  | _ n ih =>
    match D, hn with
    | [], h =>
      subst h
      simp [buildStr, decodeChunks]
    | [a], h =>
      subst h
      simp [buildStr, decodeChunks]
    | [a, b], h =>
      subst h
      simp [buildStr, decodeChunks]
    | [a, b, c], h =>
      subst h
      simp [buildStr, decodeChunks]
    | d1 :: d2 :: d3 :: d4 :: rest, h =>
      subst h
      have hq : (d1 :: d2 :: d3 :: d4 :: rest).length / 4 = rest.length / 4 + 1 := by
        simp only [List.length_cons]
        omega
      have h4 : ∀ x ∈ [d1, d2, d3, d4], x < 10 := by
        intro x hx
        simp only [List.mem_cons, List.not_mem_nil, or_false] at hx
        rcases hx with h | h | h | h <;> subst h <;> exact hd _ (by simp)
      have hlt : intOfDec [d1, d2, d3, d4] < 10000 := by
        have := intOfDec_lt _ h4
        simpa using this
      have hok : pychr (intOfDec (((d1 :: d2 :: d3 :: d4 :: rest).drop (4 * 0)).take 4))
          = .ok (intOfDec [d1, d2, d3, d4]) := by
        have hval : ((d1 :: d2 :: d3 :: d4 :: rest).drop (4 * 0)).take 4 = [d1, d2, d3, d4] := rfl
        rw [hval, pychr, if_pos (by omega)]
      have hrest : buildStr rest (List.range (rest.length / 4)) = .ok (decodeChunks rest) :=
        ih rest.length (by simp; omega) rest
          (fun x hx => hd x (by simp [hx])) rfl
      rw [hq, List.range_succ_eq_map, buildStr_cons_ok _ _ _ _ hok, buildStr_shift, hrest,
        decodeChunks, decode4_val]

theorem length_four_shape (l : List Nat) (h : l.length = 4) :
    ∃ a b c d, l = [a, b, c, d] := by
  rcases l with _ | ⟨a, _ | ⟨b, _ | ⟨c, _ | ⟨d, _ | ⟨e, t⟩⟩⟩⟩⟩ <;> simp at h
  exact ⟨a, b, c, d, rfl⟩

theorem decodeChunks_flatten (s : List Nat) (hs : ∀ c ∈ s, c < 10000) :
    decodeChunks ((s.map (fun c => zfill4 (strOfNat c))).flatten) = s := by
  induction s with
  | nil => rfl
  | cons c t ih =>
    have hc : c < 10000 := hs c (by simp)
    have hlen : (zfill4 (strOfNat c)).length = 4 :=
      zfill4_length _ (strOfNat_length_le c hc)
    obtain ⟨a, b, c2, d, hz⟩ := length_four_shape _ hlen
    have hval : 1000 * a + 100 * b + 10 * c2 + d = c := by
      rw [← decode4_val, ← hz, intOfDec_zfill4]
    rw [List.map_cons, List.flatten_cons, hz, List.cons_append, List.cons_append,
      List.cons_append, List.cons_append, List.nil_append, decodeChunks, hval,
      ih (fun x hx => hs x (by simp [hx]))]

theorem strOfNat_stringToNumber (s : List Nat) :
    strOfNat (stringToNumber s)
      = 1 :: 4 :: 2 :: 1 :: (s.map (fun c => zfill4 (strOfNat c))).flatten := by
  have hbody : ∀ d ∈ (s.map (fun c => zfill4 (strOfNat c))).flatten, d < 10 := by
    intro d hd
    rw [List.mem_flatten] at hd
    obtain ⟨l, hl, hdl⟩ := hd
    rw [List.mem_map] at hl
    obtain ⟨c, hc, hcl⟩ := hl
    rw [← hcl] at hdl
    exact zfill4_lt _ (strOfNat_lt c) d hdl
  have hcons : [1, 4, 2, 1] ++ (s.map (fun c => zfill4 (strOfNat c))).flatten
      = 1 :: (4 :: 2 :: 1 :: (s.map (fun c => zfill4 (strOfNat c))).flatten) := by
    simp
  rw [stringToNumber, hcons]
  apply strOfNat_intOfDec 1 _ (by norm_num) (by norm_num)
  intro d hd
  rcases List.mem_cons.mp hd with h | hd
  · omega
  rcases List.mem_cons.mp hd with h | hd
  · omega
  rcases List.mem_cons.mp hd with h | hd
  · omega
  exact hbody d hd

/-- C10: `numberToString` is total on every non-negative integer input:
it never produces an error (every decoded group is below `10000`, well
inside `chr`'s range); it strips a leading `1421` if present, decodes the
remaining decimal digits left to right in non-overlapping groups of four,
and silently discards the trailing `length mod 4` leftover digits — so
arbitrary integers, not only codec outputs, decode to some string
(`specDecode`, written from the claim's words). -/
theorem claim_C10 (m : Nat) : numberToString m = Except.ok (specDecode m) := by
  have hd : ∀ d ∈ strOfNat m, d < 10 := strOfNat_lt m
  simp only [numberToString, specDecode, dropMarker]
  by_cases h : (strOfNat m).take 4 = [1, 4, 2, 1]
  · simp only [if_pos h]
    exact buildStr_chunks _ (fun x hx => hd x (List.drop_subset _ _ hx))
  · simp only [if_neg h]
    exact buildStr_chunks _ hd

theorem codec_roundtrip (s : List Nat) (hs : ∀ c ∈ s, c < 10000) :
    numberToString (stringToNumber s) = Except.ok s := by
  have hbody : ∀ d ∈ (s.map (fun c => zfill4 (strOfNat c))).flatten, d < 10 := by
    intro d hd
    rw [List.mem_flatten] at hd
    obtain ⟨l, hl, hdl⟩ := hd
    rw [List.mem_map] at hl
    obtain ⟨c, hc, hcl⟩ := hl
    rw [← hcl] at hdl
    exact zfill4_lt _ (strOfNat_lt c) d hdl
  have hstr := strOfNat_stringToNumber s
  simp only [numberToString, hstr]
  have htake : (1 :: 4 :: 2 :: 1 :: (s.map (fun c => zfill4 (strOfNat c))).flatten).take 4
      = [1, 4, 2, 1] := rfl
  have hdrop : (1 :: 4 :: 2 :: 1 :: (s.map (fun c => zfill4 (strOfNat c))).flatten).drop 4
      = (s.map (fun c => zfill4 (strOfNat c))).flatten := rfl
  rw [if_pos htake, hdrop, buildStr_chunks _ hbody, decodeChunks_flatten s hs]

/-- C2: for every string `s` all of whose code points are below `10000`,
`numberToString (stringToNumber s)` recovers `s` exactly — including the
empty string and characters with small code points, which are zero-padded
to four digits. -/
theorem claim_C2 (s : List Nat) (hs : ∀ c ∈ s, c < 10000) :
    numberToString (stringToNumber s) = Except.ok s :=
  codec_roundtrip s hs

/-- Witness for C2 at the concrete string `[72, 105, 33]` (code points of
the text `Hi!`). -/
theorem claim_C2_witness :
    numberToString (stringToNumber [72, 105, 33]) = Except.ok [72, 105, 33] :=
  claim_C2 [72, 105, 33] (by decide)

/-- C4: the claim asserts `stringToNumber` rejects a character with code
point at least `10000` with an `UnsupportedCharacter` error at encode
time, and the specification (section 4.6) states this rejection is
mandatory; the code's own docstring likewise promises each character
becomes a number of length four.  The code does neither: on the input
`[65536]` (the single character U+10000) it silently returns the integer
`142165536`, whose five-digit group breaks the fixed-width framing, so
decoding returns `[6553]` and the round trip is lost.  This theorem
records the divergent behaviour at that failing input. -/
theorem claim_C4 :
    stringToNumber [65536] = 142165536 ∧
    numberToString 142165536 = Except.ok [6553] ∧
    ¬ ([6553] : List Nat) = [65536] := by
  refine ⟨by decide, by decide, by decide⟩

/-! ## `get_e` lemmas (claim C5) -/

theorem filter_sq_range (n : Nat) : ∀ m : Nat,
    (List.range m).filter (fun k => k * k ≤ n) = List.range (min m (Nat.sqrt n + 1)) := by
  intro m
  induction m with
  | zero => simp
  | succ k ih =>
    rw [List.range_succ, List.filter_append, ih]
    by_cases h : k * k ≤ n
    · have hk : k ≤ Nat.sqrt n := Nat.le_sqrt.mpr h
      have h1 : min (k + 1) (Nat.sqrt n + 1) = k + 1 := by omega
      have h2 : min k (Nat.sqrt n + 1) = k := by omega
      rw [h1, h2]
      simp [h, List.range_succ]
    · have hk : Nat.sqrt n < k := by
        by_contra hc
        push_neg at hc
        exact h (Nat.le_sqrt.mp hc)
      have h1 : min (k + 1) (Nat.sqrt n + 1) = Nat.sqrt n + 1 := by omega
      have h2 : min k (Nat.sqrt n + 1) = Nat.sqrt n + 1 := by omega
      rw [h1, h2]
      simp [h]

theorem isqrt_eq_sqrt (n : Nat) : isqrt n = Nat.sqrt n := by
  rw [isqrt, filter_sq_range n (n + 1)]
  have h : Nat.sqrt n + 1 ≤ n + 1 := by
    have := Nat.sqrt_le_self n
    omega
  rw [min_eq_right h, List.length_range]
  omega

theorem mem_factors_of_dvd (i g : Nat) (hi : 1 ≤ i) (hg : g ∣ i) :
    g ∈ factors i := by
  rw [factors, List.mem_flatMap]
  have hg0 : 0 < g := Nat.pos_of_dvd_of_pos hg (by omega)
  have hgle : g ≤ i := Nat.le_of_dvd (by omega) hg
  by_cases hle : g ≤ Nat.sqrt i
  · refine ⟨g, ?_, by simp⟩
    rw [List.mem_filter]
    refine ⟨?_, ?_⟩
    · rw [List.mem_range', isqrt_eq_sqrt]
      exact ⟨g - 1, by omega, by omega⟩
    · simp only [decide_eq_true_eq]
      exact Nat.dvd_iff_mod_eq_zero.mp hg
  · push_neg at hle
    have hgi : g * (i / g) = i := Nat.mul_div_cancel' hg
    have hc1 : 1 ≤ i / g := by
      rcases Nat.eq_zero_or_pos (i / g) with h0 | h1
    -- i / g = 0 would make g * (i/g) = 0 ≠ i
      · rw [h0, Nat.mul_zero] at hgi
        omega
      · exact h1
    have hcle : i / g ≤ Nat.sqrt i := by
      by_contra hc
      push_neg at hc
      have hmul : (Nat.sqrt i + 1) * (Nat.sqrt i + 1) ≤ g * (i / g) :=
        Nat.mul_le_mul (by omega) (by omega)
      have h2 : i < (Nat.sqrt i + 1) * (Nat.sqrt i + 1) := Nat.lt_succ_sqrt i
      omega
    have hdvd : (i / g) ∣ i := Nat.div_dvd_of_dvd hg
    have hcpos : 0 < i / g := hc1
    refine ⟨i / g, ?_, ?_⟩
    · rw [List.mem_filter]
      refine ⟨?_, ?_⟩
      · rw [List.mem_range', isqrt_eq_sqrt]
        exact ⟨i / g - 1, by omega, by omega⟩
      · simp only [decide_eq_true_eq]
        exact Nat.dvd_iff_mod_eq_zero.mp hdvd
    · have hdd : i / (i / g) = g := Nat.div_div_self hg (by omega)
      simp [hdd]

/-- C5: whenever `get_e phi` returns an integer `i`, that `i` is odd,
lies between `3` and `9999` inclusive, and is coprime to `phi` — the
divisor enumeration of `factors` is a complete coprimality check because
any common factor of `i` and `phi` appears among the divisors of `i`. -/
theorem claim_C5 (phi i : Nat) (h : get_e phi = some i) :
    i % 2 = 1 ∧ 3 ≤ i ∧ i ≤ 9999 ∧ Nat.gcd i phi = 1 := by
  have hmem := List.mem_of_find?_eq_some h
  have hp := List.find?_some h
  rw [List.mem_range'] at hmem
  obtain ⟨k, hk, hik⟩ := hmem
  refine ⟨by omega, by omega, by omega, ?_⟩
  rw [List.all_eq_true] at hp
  by_contra hne
  have hgd : Nat.gcd i phi ∣ i := Nat.gcd_dvd_left i phi
  have hgp : Nat.gcd i phi ∣ phi := Nat.gcd_dvd_right i phi
  have hg1 : 1 ≤ Nat.gcd i phi := Nat.pos_of_dvd_of_pos hgd (by omega)
  have hgf : Nat.gcd i phi ∈ (factors i).filter (fun j => j ≠ 1) := by
    rw [List.mem_filter]
    refine ⟨mem_factors_of_dvd i _ (by omega) hgd, ?_⟩
    simp only [ne_eq, decide_eq_true_eq]
    exact hne
  have hx := hp _ hgf
  simp only [decide_eq_true_eq] at hx
  exact hx (Nat.dvd_iff_mod_eq_zero.mp hgp)

/-- Witness for C5 at `phi = 3120` (the toy key's totient), where the
search returns `e = 7`. -/
theorem claim_C5_witness :
    get_e 3120 = some 7 ∧ (7 % 2 = 1 ∧ 3 ≤ 7 ∧ 7 ≤ 9999 ∧ Nat.gcd 7 3120 = 1) :=
  ⟨by decide, claim_C5 3120 7 (by decide)⟩

/-! ## `get_d` lemmas (claims C3 and C8) -/

theorem addUntilNonneg_nonneg (phi : Int) (hphi : 0 < phi) :
    ∀ (fuel : Nat) (t : Int), (t < 0 → t.natAbs ≤ fuel) →
      0 ≤ addUntilNonneg fuel phi t := by
  intro fuel
  induction fuel with
  | zero =>
    intro t ht
    rw [addUntilNonneg]
    by_cases h : t < 0
    · have := ht h
      omega
    · omega
  | succ f ih =>
    intro t ht
    rw [addUntilNonneg]
    by_cases h : t < 0
    · rw [if_pos h]
      apply ih
      intro h2
      have := ht h
      omega
    · rw [if_neg h]
      omega

theorem addUntilNonneg_emod (phi : Int) :
    ∀ (fuel : Nat) (t : Int), addUntilNonneg fuel phi t % phi = t % phi := by
  intro fuel
  induction fuel with
  | zero => intro t; rw [addUntilNonneg]
  | succ f ih =>
    intro t
    rw [addUntilNonneg]
    by_cases h : t < 0
    · rw [if_pos h, ih]
      conv_rhs => rw [← Int.add_mul_emod_self_left (b := phi) (c := 1)]
      rw [Int.mul_one]
    · rw [if_neg h]

theorem get_d_loop_ok (phi e : Nat) (hphi : 1 < phi) :
    ∀ b : Nat, ∀ fuel a : Nat, ∀ u v : Int,
      b + 2 ≤ fuel → 1 ≤ b → Nat.gcd a b = 1 → 0 ≤ v →
      (e : Int) * u ≡ (a : Int) [ZMOD (phi : Int)] →
      (e : Int) * v ≡ (b : Int) [ZMOD (phi : Int)] →
      ∃ dn : Nat, get_d_loop phi fuel (a, b) (u, v) = .ok (dn : Int) ∧
        e * dn % phi = 1 := by
  intro b
  induction b using Nat.strong_induction_on with
  | _ b ih =>
    intro fuel a u v hfuel hb hgcd hv hu hvb
    match fuel, hfuel with
    | 0, hf => exact absurd hf (by omega)
    | fuel + 1, hf =>
      by_cases hb1 : b = 1
      · subst hb1
        rw [get_d_loop, if_pos rfl]
        refine ⟨v.toNat, ?_, ?_⟩
        · rw [Int.toNat_of_nonneg hv]
        · have hmod : ((e : Int) * v) % (phi : Int) = 1 % (phi : Int) := by
            simpa using hvb
          have hv1 : ((e * v.toNat : Nat) : Int) % (phi : Int) = 1 % (phi : Int) := by
            push_cast
            rw [Int.toNat_of_nonneg hv]
            exact hmod
          have h1 : (1 : Int) % (phi : Int) = 1 := by
            apply Int.emod_eq_of_lt (by omega)
            exact_mod_cast hphi
          rw [h1] at hv1
          have hv2 := hv1
          push_cast at hv2
          have : ((e * v.toNat % phi : Nat) : Int) = ((1 : Nat) : Int) := by
            push_cast
            exact hv2
          exact_mod_cast this
      · have hb2 : 2 ≤ b := by omega
        rw [get_d_loop, if_neg (by omega), if_neg (by omega)]
        simp only []
        set b2 := a % b with hb2def
        have hblt : b2 < b := Nat.mod_lt a (by omega)
        have hgcd2 : Nat.gcd b b2 = 1 := by
          rw [hb2def]
          rw [Nat.gcd_comm b (a % b), ← Nat.gcd_rec b a, Nat.gcd_comm b a]
          exact hgcd
        have hb21 : 1 ≤ b2 := by
          rcases Nat.eq_zero_or_pos b2 with h0 | h1
          · rw [h0] at hgcd2
            simp at hgcd2
            omega
          · exact h1
        set tb1 := a / b with htb1
        set td2 := addUntilNonneg (((u : Int) - (tb1 : Int) * v).natAbs + 1) (phi : Int)
          ((u : Int) - (tb1 : Int) * v) with htd2
        have htd2nn : 0 ≤ td2 := by
          apply addUntilNonneg_nonneg _ (by exact_mod_cast (by omega : 0 < phi))
          intro h
          omega
        have htd2mod : td2 ≡ u - (tb1 : Int) * v [ZMOD (phi : Int)] :=
          addUntilNonneg_emod (phi : Int) _ _
        have hsub : (a : Int) - (tb1 : Int) * (b : Int) = (b2 : Int) := by
          have hnat : b2 + tb1 * b = a := by
            have hdm := Nat.div_add_mod a b
            have hcomm : a / b * b = b * (a / b) := Nat.mul_comm _ _
            rw [htb1, hb2def]
            omega
          have h1 : ((b2 + tb1 * b : Nat) : Int) = ((a : Nat) : Int) :=
            congrArg Nat.cast hnat
          rw [Nat.cast_add, Nat.cast_mul] at h1
          omega
        have hcong : (e : Int) * td2 ≡ (b2 : Int) [ZMOD (phi : Int)] := by
          calc (e : Int) * td2 ≡ (e : Int) * (u - (tb1 : Int) * v) [ZMOD (phi : Int)] :=
                htd2mod.mul_left (e : Int)
            _ = (e : Int) * u - (tb1 : Int) * ((e : Int) * v) := by ring
            _ ≡ (a : Int) - (tb1 : Int) * (b : Int) [ZMOD (phi : Int)] :=
                hu.sub (hvb.mul_left (tb1 : Int))
            _ = (b2 : Int) := hsub
        have hrec := ih b2 hblt fuel b v td2 (by omega) hb21 hgcd2 htd2nn hvb hcong
        obtain ⟨dn, hdn, hdok⟩ := hrec
        refine ⟨dn, ?_, hdok⟩
        have harg : a - tb1 * b = b2 := by
          have hdm := Nat.div_add_mod a b
          have hcomm : a / b * b = b * (a / b) := Nat.mul_comm _ _
          rw [htb1, hb2def]
          omega
        rw [← harg] at hdn
        exact hdn

/-- C3: for every `phi > 1` and `e ≥ 1` with `gcd(e, phi) = 1`, the
extended-Euclid recurrence `get_d` terminates and returns a non-negative
`d` (a `Nat` here) with `(e * d) mod phi = 1`. -/
theorem claim_C3 (phi e : Nat) (hphi : 1 < phi) (he : 1 ≤ e)
    (hcop : Nat.gcd e phi = 1) :
    ∃ d : Nat, get_d phi e = .ok (d : Int) ∧ e * d % phi = 1 := by
  apply get_d_loop_ok phi e hphi e (e + 2) phi (phi : Int) 1 (by omega) he
  · rw [Nat.gcd_comm]
    exact hcop
  · omega
  · show ((e : Int) * (phi : Int)) % (phi : Int) = (phi : Int) % (phi : Int)
    simp [Int.mul_emod_right]
  · show ((e : Int) * 1) % (phi : Int) = (e : Int) % (phi : Int)
    rw [Int.mul_one]

/-- Witness for C3 at `phi = 5`, `e = 3` (the loop returns `d = 2`). -/
theorem claim_C3_witness :
    ∃ d : Nat, get_d 5 3 = Except.ok (d : Int) ∧ 3 * d % 5 = 1 :=
  claim_C3 5 3 (by norm_num) (by norm_num) (by decide)

theorem get_d_loop_zero (phi : Nat) :
    ∀ b : Nat, ∀ fuel a : Nat, ∀ u v : Int,
      b + 2 ≤ fuel → Nat.gcd a b ≠ 1 →
      get_d_loop phi fuel (a, b) (u, v) = .error .zeroDivisionError := by
  intro b
  induction b using Nat.strong_induction_on with
  | _ b ih =>
    intro fuel a u v hfuel hgcd
    match fuel, hfuel with
    | 0, hf => exact absurd hf (by omega)
    | fuel + 1, hf =>
      by_cases hb1 : b = 1
      · subst hb1
        simp at hgcd
      · by_cases hb0 : b = 0
        · subst hb0
          rw [get_d_loop, if_neg (by omega), if_pos rfl]
        · have hb2 : 2 ≤ b := by omega
          rw [get_d_loop, if_neg (by omega), if_neg (by omega)]
          simp only []
          have hblt : a % b < b := Nat.mod_lt a (by omega)
          have hgcd2 : Nat.gcd b (a % b) ≠ 1 := by
            rw [Nat.gcd_comm b (a % b), ← Nat.gcd_rec b a, Nat.gcd_comm b a]
            exact hgcd
          have harg : a - a / b * b = a % b := by
            have hdm := Nat.div_add_mod a b
            have hcomm : a / b * b = b * (a / b) := Nat.mul_comm _ _
            omega
          rw [harg]
          exact ih (a % b) hblt fuel b _ _ (by omega) hgcd2

/-- C8 (amended): for every `phi` and `e` with `gcd(e, phi) ≠ 1`, `get_d`
terminates, never returns a value, and fails — but with a
`ZeroDivisionError` (the Euclid loop drives `t1[1]` to `0` and then
divides by it), not with the `NoInverseExists` report the claim names;
the code contains no such defensive check. -/
theorem claim_C8 (phi e : Nat) (h : Nat.gcd e phi ≠ 1) :
    get_d phi e = Except.error Err.zeroDivisionError := by
  apply get_d_loop_zero phi e (e + 2) phi (phi : Int) 1 (by omega)
  rw [Nat.gcd_comm]
  exact h

/-- Witness for (amended) C8 at `phi = 4`, `e = 2`. -/
theorem claim_C8_witness :
    Nat.gcd 2 4 ≠ 1 ∧ get_d 4 2 = Except.error Err.zeroDivisionError :=
  ⟨by decide, claim_C8 4 2 (by decide)⟩

/-- Counterexample for C8 as stated: at `phi = 4`, `e = 2` (so
`gcd(e, phi) = 2 ≠ 1`) the code raises `ZeroDivisionError`, which is not
the claimed `NoInverseExists` report. -/
theorem claim_C8_counterexample :
    Nat.gcd 2 4 ≠ 1 ∧ get_d 4 2 = Except.error Err.zeroDivisionError ∧
    (Except.error Err.zeroDivisionError : Except Err Int) ≠
      Except.error Err.noInverseExists := by
  refine ⟨by decide, by decide, by decide⟩

/-! ## `is_prime` lemmas (claim C7) -/

theorem split2_spec : ∀ (fuel m s : Nat), 0 < m → m ≤ fuel →
    (split2 fuel s m).2 % 2 = 1 ∧
    2 ^ ((split2 fuel s m).1 - s) * (split2 fuel s m).2 = m ∧
    s ≤ (split2 fuel s m).1 := by
  intro fuel
  induction fuel with
  | zero =>
    intro m s h1 h2
    omega
  | succ f ih =>
    intro m s h1 h2
    rw [split2]
    by_cases h : m % 2 = 0
    · rw [if_pos h]
      have hm2 : 0 < m / 2 := by omega
      have hle : m / 2 ≤ f := by omega
      obtain ⟨ho, he, hs⟩ := ih (m / 2) (s + 1) hm2 hle
      refine ⟨ho, ?_, by omega⟩
      have hsplit : (split2 f (s + 1) (m / 2)).1 - s
          = ((split2 f (s + 1) (m / 2)).1 - (s + 1)) + 1 := by omega
      rw [hsplit, pow_succ]
      have hrw : 2 ^ ((split2 f (s + 1) (m / 2)).1 - (s + 1)) * 2 * (split2 f (s + 1) (m / 2)).2
          = 2 * (2 ^ ((split2 f (s + 1) (m / 2)).1 - (s + 1)) * (split2 f (s + 1) (m / 2)).2) := by
        ring
      rw [hrw, he]
      omega
    · rw [if_neg h]
      refine ⟨by omega, by simp, le_rfl⟩

theorem val_neg_one_eq (n : Nat) (hn : 2 < n) : ((-1 : ZMod n)).val = n - 1 := by
  haveI : NeZero n := ⟨by omega⟩
  have h : (-1 : ZMod n) = ((n - 1 : Nat) : ZMod n) := by
    have hc : ((n - 1 : Nat) : ZMod n) = ((n : Nat) : ZMod n) - 1 := by
      rw [Nat.cast_sub (by omega : 1 ≤ n)]
      simp
    rw [hc, ZMod.natCast_self]
    ring
  rw [h, ZMod.val_cast_of_lt (by omega)]

theorem val_eq_one_iff (n : Nat) (hn : 1 < n) (β : ZMod n) : β.val = 1 ↔ β = 1 := by
  haveI : NeZero n := ⟨by omega⟩
  haveI : Fact (1 < n) := ⟨hn⟩
  constructor
  · intro h
    have := ZMod.natCast_zmod_val β
    rw [← this, h]
    simp
  · intro h
    rw [h, ZMod.val_one]

theorem val_eq_neg_one_iff (n : Nat) (hn : 2 < n) (β : ZMod n) :
    β.val = n - 1 ↔ β = -1 := by
  haveI : NeZero n := ⟨by omega⟩
  constructor
  · intro h
    have := ZMod.natCast_zmod_val β
    rw [← this, h, Nat.cast_sub (by omega : 1 ≤ n), ZMod.natCast_self]
    ring
  · intro h
    rw [h, val_neg_one_eq n hn]

theorem mrLoop_true (n : Nat) (hn : 2 < n) (hp : n.Prime) :
    ∀ (fuel : Nat) (β : ZMod n), (∃ t, t ≤ fuel ∧ β ^ 2 ^ t = -1) →
      mrLoop n fuel β.val = true := by
  haveI : Fact n.Prime := ⟨hp⟩
  haveI : NeZero n := ⟨by omega⟩
  intro fuel
  induction fuel with
  | zero =>
    rintro β ⟨t, ht, hβ⟩
    have ht0 : t = 0 := by omega
    subst ht0
    simp only [pow_zero, pow_one] at hβ
    rw [mrLoop, hβ, val_neg_one_eq n hn]
    simp
  | succ f ih =>
    rintro β ⟨t, ht, hβ⟩
    rw [mrLoop]
    by_cases hm : β.val = n - 1
    · rw [if_pos hm]
    · rw [if_neg hm]
      have hβm1 : β ≠ -1 := fun hc => hm ((val_eq_neg_one_iff n hn β).mpr hc)
      have ht1 : 1 ≤ t := by
        rcases Nat.eq_zero_or_pos t with h0 | h1
        · rw [h0] at hβ
          simp only [pow_zero, pow_one] at hβ
          exact absurd hβ hβm1
        · exact h1
      have hone_ne : (1 : ZMod n) ≠ -1 := by
        intro hc
        have h1 : (1 : ZMod n).val = 1 := (val_eq_one_iff n (by omega) 1).mpr rfl
        rw [hc, val_neg_one_eq n hn] at h1
        omega
      have hβ1 : β ≠ 1 := by
        intro hc
        rw [hc, one_pow] at hβ
        exact hone_ne hβ
      have hsqne : β ^ 2 ≠ 1 := by
        intro hc
        have hc2 : β * β = 1 := by
          rw [← sq]
          exact hc
        rcases mul_self_eq_one_iff.mp hc2 with h | h
        · exact hβ1 h
        · exact hβm1 h
      have hx2 : β.val ^ 2 % n = (β ^ 2).val := by
        rw [sq, sq, ZMod.val_mul]
      have hx2ne1 : ¬ (β.val ^ 2 % n = 1) := by
        rw [hx2]
        intro hc
        exact hsqne ((val_eq_one_iff n (by omega) _).mp hc)
      simp only []
      rw [if_neg hx2ne1, hx2]
      apply ih (β ^ 2)
      refine ⟨t - 1, by omega, ?_⟩
      rw [← pow_mul]
      have h2t : 2 * 2 ^ (t - 1) = 2 ^ t := by
        conv_rhs => rw [show t = (t - 1) + 1 by omega]
        rw [pow_succ]
        ring
      rw [h2t]
      exact hβ

theorem millerRound_prime (n : Nat) (hp : n.Prime) (h5 : 5 ≤ n)
    (r s : Nat) (hr : 2 ^ s * r = n - 1) (hs : 1 ≤ s)
    (a : Nat) (ha2 : 2 ≤ a) (han : a ≤ n - 2) :
    millerRound n r s a = true := by
  haveI : Fact n.Prime := ⟨hp⟩
  haveI : NeZero n := ⟨by omega⟩
  set α : ZMod n := ((a : Nat) : ZMod n) with hα
  have hα0 : α ≠ 0 := by
    rw [hα, Ne, ZMod.natCast_zmod_eq_zero_iff_dvd]
    intro hdvd
    have := Nat.le_of_dvd (by omega) hdvd
    omega
  have hferm : α ^ (n - 1) = 1 := ZMod.pow_card_sub_one_eq_one hα0
  have hpow : α ^ (2 ^ s * r) = 1 := by rw [hr]; exact hferm
  have hx : a ^ r % n = (α ^ r).val := by
    rw [hα, ← Nat.cast_pow, ZMod.val_natCast]
  rw [millerRound]
  by_cases h1 : a ^ r % n = 1 ∨ a ^ r % n = n - 1
  · rw [if_pos h1]
  · rw [if_neg h1]
    push_neg at h1
    obtain ⟨hne1, hnem1⟩ := h1
    have hβ1 : α ^ r ≠ 1 := by
      intro hc
      apply hne1
      rw [hx, hc, ZMod.val_one]
    have hPex : ∃ t, α ^ (2 ^ t * r) = 1 := ⟨s, hpow⟩
    set T := Nat.find hPex with hT
    have hPT : α ^ (2 ^ T * r) = 1 := Nat.find_spec hPex
    have hTle : T ≤ s := Nat.find_min' hPex hpow
    have hT1 : 1 ≤ T := by
      rcases Nat.eq_zero_or_pos T with h0 | h1
      · rw [h0] at hPT
        simp only [pow_zero, one_mul] at hPT
        exact absurd hPT hβ1
      · exact h1
    have hsq : (α ^ (2 ^ (T - 1) * r)) * (α ^ (2 ^ (T - 1) * r)) = 1 := by
      rw [← pow_add]
      have harith : 2 ^ (T - 1) * r + 2 ^ (T - 1) * r = 2 ^ T * r := by
        have h2t : 2 ^ T = 2 ^ (T - 1) + 2 ^ (T - 1) := by
          conv_lhs => rw [show T = (T - 1) + 1 by omega]
          rw [pow_succ]
          ring
        rw [h2t]
        ring
      rw [harith]
      exact hPT
    have hne : α ^ (2 ^ (T - 1) * r) ≠ 1 := by
      have := Nat.find_min hPex (show T - 1 < T by omega)
      simpa using this
    have hγ : α ^ (2 ^ (T - 1) * r) = -1 := by
      rcases mul_self_eq_one_iff.mp hsq with h | h
      · exact absurd h hne
      · exact h
    rw [hx]
    apply mrLoop_true n (by omega) hp (s - 1) (α ^ r)
    refine ⟨T - 1, by omega, ?_⟩
    rw [← pow_mul]
    rw [show r * 2 ^ (T - 1) = 2 ^ (T - 1) * r by ring]
    exact hγ

/-- C7: `is_prime` never produces a false negative — for every prime `n`
and every list of random witnesses drawn from `[2, n-2]` (one per round,
any number of rounds) it returns `true`; and it returns `false` for every
`n ≤ 1` and every even `n > 2`. -/
theorem claim_C7 (n : Nat) (ws : List Nat) :
    (n.Prime → (∀ a ∈ ws, 2 ≤ a ∧ a ≤ n - 2) → is_prime n ws = true) ∧
    (n ≤ 1 → is_prime n ws = false) ∧
    (2 < n → n % 2 = 0 → is_prime n ws = false) := by
  refine ⟨?_, ?_, ?_⟩
  · intro hp hws
    by_cases h23 : n = 2 ∨ n = 3
    · rw [is_prime, if_pos h23]
    · have h2 := hp.two_le
      have h5 : 5 ≤ n := by
        rcases Nat.lt_or_ge n 5 with h | h
        · exfalso
          have h4 : n = 4 := by omega
          rw [h4] at hp
          exact absurd hp (by norm_num)
        · exact h
      have hodd : n % 2 = 1 := by
        exact Nat.odd_iff.mp (hp.odd_of_ne_two (by omega))
      rw [is_prime, if_neg h23, if_neg (by omega)]
      obtain ⟨hro, hre, hs0⟩ := split2_spec (n - 1) (n - 1) 0 (by omega) le_rfl
      rw [Nat.sub_zero] at hre
      have hs1 : 1 ≤ (split2 (n - 1) 0 (n - 1)).1 := by
        rcases Nat.eq_zero_or_pos (split2 (n - 1) 0 (n - 1)).1 with h0 | hpos
        · rw [h0, pow_zero, one_mul] at hre
          omega
        · exact hpos
      simp only [List.all_eq_true]
      intro a ha
      have hwa := hws a ha
      exact millerRound_prime n hp h5 _ _ hre hs1 a hwa.1 hwa.2
  · intro h
    rw [is_prime, if_neg (by omega), if_pos (by omega)]
  · intro h2 hev
    rw [is_prime, if_neg (by omega), if_pos (by omega)]

/-- Witness for C7: the prime `5` with witness draw `3` passes, `1` and
the even `8` are rejected. -/
theorem claim_C7_witness :
    is_prime 5 [3] = true ∧ is_prime 1 [2] = false ∧ is_prime 8 [2] = false :=
  ⟨(claim_C7 5 [3]).1 (by norm_num) (by decide),
   (claim_C7 1 [2]).2.1 (by decide),
   (claim_C7 8 [2]).2.2 (by decide) (by decide)⟩

/-! ## `bitcount` lemmas (claim C6) -/

theorem bitcountProbe_spec : ∀ (fuel n a : Nat), 0 < a → n + 1 ≤ fuel + a →
    n < 2 ^ bitcountProbe fuel n a ∧ ∃ j, bitcountProbe fuel n a = a * 2 ^ j := by
  intro fuel
  induction fuel with
  | zero =>
    intro n a ha h
    rw [bitcountProbe]
    have := Nat.lt_two_pow a
    exact ⟨by omega, 0, by ring⟩
  | succ f ih =>
    intro n a ha h
    rw [bitcountProbe]
    by_cases hc : 2 ^ a ≤ n
    · rw [if_pos hc]
      have halt : a < 2 ^ a := Nat.lt_two_pow a
      obtain ⟨h1, j, hj⟩ := ih n (2 * a) (by omega) (by omega)
      refine ⟨h1, j + 1, ?_⟩
      rw [hj]
      ring
    · rw [if_neg hc]
      exact ⟨by omega, 0, by ring⟩

theorem size_div_pow (n k : Nat) (h : 2 ^ k ≤ n) :
    Nat.size (n / 2 ^ k) = Nat.size n - k := by
  have hk : k < Nat.size n := Nat.lt_size.mpr h
  apply le_antisymm
  · rw [Nat.size_le, Nat.div_lt_iff_lt_mul (by positivity), ← pow_add]
    have heq : Nat.size n - k + k = Nat.size n := by omega
    rw [heq]
    exact Nat.lt_size_self n
  · by_contra hc
    push_neg at hc
    have h1 : n / 2 ^ k < 2 ^ (Nat.size n - k - 1) := by
      calc n / 2 ^ k < 2 ^ Nat.size (n / 2 ^ k) := Nat.lt_size_self _
        _ ≤ 2 ^ (Nat.size n - k - 1) := Nat.pow_le_pow_right (by norm_num) (by omega)
    have h2 : n < 2 ^ (Nat.size n - k - 1) * 2 ^ k := by
      rw [← Nat.div_lt_iff_lt_mul (by positivity)]
      exact h1
    rw [← pow_add] at h2
    have h3 : Nat.size n ≤ Nat.size n - k - 1 + k := Nat.size_le.mpr h2
    omega

theorem two_pow_halves (j : Nat) (hj : 1 ≤ j) :
    2 ^ 2 ^ (j - 1) * 2 ^ 2 ^ (j - 1) = 2 ^ 2 ^ j := by
  rw [← pow_add]
  congr 1
  conv_rhs => rw [show j = (j - 1) + 1 by omega]
  rw [pow_succ]
  ring

theorem bitcountShrink_spec : ∀ (fuel : Nat) (j n s : Nat), j ≤ fuel →
    n < 2 ^ 2 ^ j → bitcountShrink fuel (2 ^ j) n s = s + Nat.size n := by
  intro fuel
  induction fuel with
  | zero =>
    intro j n s hj hn
    have hj0 : j = 0 := by omega
    subst hj0
    have h2 : n < 2 := by
      have : (2 : Nat) ^ 2 ^ 0 = 2 := by norm_num
      omega
    rw [bitcountShrink]
    interval_cases n
    · simp [Nat.size_zero]
    · simp [Nat.size_one]
  | succ f ih =>
    intro j n s hj hn
    rcases Nat.eq_zero_or_pos j with hj0 | hjpos
    · subst hj0
      have h2 : n < 2 := by
        have : (2 : Nat) ^ 2 ^ 0 = 2 := by norm_num
        omega
      rw [bitcountShrink, if_neg (by norm_num)]
      interval_cases n
      · simp [Nat.size_zero]
      · simp [Nat.size_one]
    · have hgt1 : 1 < 2 ^ j := by
        have := Nat.one_lt_two_pow_iff (n := j)
        omega
      rw [bitcountShrink, if_pos hgt1]
      have ha2 : 2 ^ j / 2 = 2 ^ (j - 1) := by
        conv_lhs => rw [show j = (j - 1) + 1 by omega]
        rw [pow_succ, Nat.mul_div_cancel _ (by norm_num)]
      rw [ha2]
      by_cases hcase : 2 ^ 2 ^ (j - 1) ≤ n
      · rw [if_pos hcase]
        have hdiv : n / 2 ^ 2 ^ (j - 1) < 2 ^ 2 ^ (j - 1) := by
          rw [Nat.div_lt_iff_lt_mul (by positivity)]
          rw [two_pow_halves j hjpos]
          exact hn
        rw [ih (j - 1) _ _ (by omega) hdiv]
        have hsz : Nat.size (n / 2 ^ 2 ^ (j - 1)) = Nat.size n - 2 ^ (j - 1) :=
          size_div_pow n (2 ^ (j - 1)) hcase
        have hszge : 2 ^ (j - 1) < Nat.size n := Nat.lt_size.mpr hcase
        rw [hsz]
        omega
      · rw [if_neg hcase]
        exact ih (j - 1) n s (by omega) (by omega)

theorem bitcount_eq_size (n : Nat) : bitcount n = Nat.size n := by
  simp only [bitcount]
  obtain ⟨h1, j, hj⟩ := bitcountProbe_spec (n + 1) n 1 (by omega) (by omega)
  rw [one_mul] at hj
  rw [hj] at h1 ⊢
  have hfj : j ≤ 2 ^ j := Nat.le_of_lt (Nat.lt_two_pow j)
  rw [bitcountShrink_spec (2 ^ j) j n 0 hfj h1]
  omega

/-- C6: for every key and every non-negative integer `msg`, `_encrypt`
raises `MessageTooLarge` exactly when the bit length of `msg` (the
mathematical `Nat.size`, which `bitcount` computes) is at least `nbits`,
and otherwise returns `msg ^ e mod n`. -/
theorem claim_C6 (kp : RsaKeyPair) (msg : Nat) :
    (rsaRawEncrypt kp msg = Except.error Err.messageTooLarge ↔
      kp.nbits ≤ Nat.size msg) ∧
    (Nat.size msg < kp.nbits →
      rsaRawEncrypt kp msg = Except.ok (msg ^ kp.e % kp.n)) := by
  refine ⟨⟨?_, ?_⟩, ?_⟩
  · intro h
    by_contra hc
    push_neg at hc
    rw [rsaRawEncrypt, if_neg (by rw [bitcount_eq_size]; omega)] at h
    exact absurd h (by simp)
  · intro h
    rw [rsaRawEncrypt, if_pos (by rw [bitcount_eq_size]; omega)]
  · intro h
    rw [rsaRawEncrypt, if_neg (by rw [bitcount_eq_size]; omega)]

/-- Witness for C6: the toy key accepts the sentinel message `12`
(4 bits, below `nbits = 12`). -/
theorem claim_C6_witness :
    rsaRawEncrypt kpF 12 = Except.ok (12 ^ 7 % 3233) := by
  have h := (claim_C6 kpF 12).2
  have hsz : Nat.size 12 < kpF.nbits := by
    rw [← bitcount_eq_size]
    decide
  exact h hsz

/-! ## Public-only decryption (claim C9) -/

theorem rsaRawDecrypt_no_d (kp : RsaKeyPair) (hd : kp.d = none) (r cipher : Nat) :
    rsaRawDecrypt kp r cipher = Except.error Err.attributeError := by
  rw [rsaRawDecrypt]
  by_cases h : 1023 ≤ kp.nbits
  · rw [if_pos h]
    simp only [hd]
  · rw [if_neg h]
    simp only [hd]

/-- C9 (amended): for every key constructed in public-only mode and every
cipher and blinding draw, `decrypt` never returns a value — but the
failure is the `AttributeError` Python raises on the missing attribute
`d` (the code has no `only_pubkey` check in `_decrypt`), not a dedicated
`PrivateKeyRequired` error. -/
theorem claim_C9 (e n kl : Nat) (iw : Bool) (kp : RsaKeyPair)
    (h : rsaInitPublic e n kl iw = Except.ok kp) (r cipher : Nat) :
    rsaDecrypt kp r cipher = Except.error Err.attributeError := by
  rw [rsaInitPublic] at h
  by_cases h1 : kl < 1024 ∧ iw = false
  · rw [if_pos h1] at h
    exact absurd h (by simp)
  · rw [if_neg h1] at h
    by_cases h2 : e = 0 ∨ n = 0
    · rw [if_pos h2] at h
      exact absurd h (by simp)
    · rw [if_neg h2] at h
      have hkp : (⟨true, e, n, bitcount n, none, none, none, none⟩ : RsaKeyPair) = kp :=
        Except.ok.inj h
      have hd : kp.d = none := by
        rw [← hkp]
      rw [rsaDecrypt, rsaRawDecrypt_no_d kp hd]

/-- Witness for (amended) C9: the concrete public-only key `kpPub`. -/
theorem claim_C9_witness :
    rsaDecrypt kpPub (10 ^ 46) 999 = Except.error Err.attributeError :=
  claim_C9 7 3233 2048 false kpPub (by decide) (10 ^ 46) 999

/-- Counterexample for C9 as stated: the public-only key built from
`e = 7`, `n = 3233` fails decryption with `AttributeError`, which is not
the claimed `PrivateKeyRequired` error. -/
theorem claim_C9_counterexample :
    rsaInitPublic 7 3233 2048 false = Except.ok kpPub ∧
    rsaDecrypt kpPub (10 ^ 46) 999 = Except.error Err.attributeError ∧
    (Except.error Err.attributeError : Except Err (List Nat)) ≠
      Except.error Err.privateKeyRequired := by
  refine ⟨by decide, by decide, by decide⟩

/-! ## RSA round-trip correctness (claim C1) -/

theorem pow_congr_prime (p m w : Nat) (hp : p.Prime) (c : Nat)
    (hw : w = c * (p - 1) + 1) : m ^ w ≡ m [MOD p] := by
  haveI : Fact p.Prime := ⟨hp⟩
  have hz : ((m : ZMod p)) ^ w = (m : ZMod p) := by
    by_cases hm0 : (m : ZMod p) = 0
    · rw [hm0]
      exact zero_pow (by omega)
    · rw [hw, pow_succ, show c * (p - 1) = (p - 1) * c by ring, pow_mul,
        ZMod.pow_card_sub_one_eq_one hm0, one_pow, one_mul]
  rw [← ZMod.natCast_eq_natCast_iff]
  push_cast
  exact hz

theorem rsa_roundtrip (p q e d m : Nat) (hp : p.Prime) (hq : q.Prime)
    (hpq : p ≠ q) (hed : e * d % ((p - 1) * (q - 1)) = 1) (hm : m < p * q) :
    (m ^ e % (p * q)) ^ d % (p * q) = m := by
  have hp2 := hp.two_le
  have hq2 := hq.two_le
  obtain ⟨k, hk⟩ : ∃ k, e * d = k * ((p - 1) * (q - 1)) + 1 := by
    refine ⟨e * d / ((p - 1) * (q - 1)), ?_⟩
    have h1 := Nat.div_add_mod (e * d) ((p - 1) * (q - 1))
    have h2 : (p - 1) * (q - 1) * (e * d / ((p - 1) * (q - 1)))
        = e * d / ((p - 1) * (q - 1)) * ((p - 1) * (q - 1)) := Nat.mul_comm _ _
    omega
  have hstep : (m ^ e % (p * q)) ^ d % (p * q) = m ^ (e * d) % (p * q) := by
    rw [← Nat.pow_mod, ← pow_mul]
  rw [hstep]
  have hmp : m ^ (e * d) ≡ m [MOD p] :=
    pow_congr_prime p m (e * d) hp (k * (q - 1)) (by rw [hk]; ring)
  have hmq : m ^ (e * d) ≡ m [MOD q] :=
    pow_congr_prime q m (e * d) hq (k * (p - 1)) (by rw [hk]; ring)
  have hcop : Nat.Coprime p q := (Nat.coprime_primes hp hq).mpr hpq
  have hmod : m ^ (e * d) ≡ m [MOD p * q] :=
    (Nat.modEq_and_modEq_iff_modEq_mul hcop).mp ⟨hmp, hmq⟩
  calc m ^ (e * d) % (p * q) = m % (p * q) := hmod
    _ = m := Nat.mod_eq_of_lt hm

theorem lt_of_size_lt_size (a b : Nat) (h : Nat.size a < Nat.size b) : a < b := by
  have h1 : a < 2 ^ Nat.size a := Nat.lt_size_self a
  have h2 : 2 ^ (Nat.size b - 1) ≤ b := Nat.lt_size.mp (by omega)
  have h3 : 2 ^ Nat.size a ≤ 2 ^ (Nat.size b - 1) :=
    Nat.pow_le_pow_right (by norm_num) (by omega)
  omega

theorem rawDecrypt_ok (kp : RsaKeyPair) (p q dd : Nat)
    (hd : kp.d = some dd)
    (hpprime : p.Prime) (hqprime : q.Prime) (hpq : p ≠ q)
    (hn : kp.n = p * q)
    (hed : kp.e * dd % ((p - 1) * (q - 1)) = 1)
    (m r : Nat) (hm : m < kp.n) (hr0 : 0 < r)
    (hbl : 1023 ≤ kp.nbits → m * r < kp.n) :
    rsaRawDecrypt kp r (m ^ kp.e % kp.n) = Except.ok m := by
  have hnpos : 0 < kp.n := by
    rw [hn]
    have := hpprime.two_le
    have := hqprime.two_le
    positivity
  rw [rsaRawDecrypt]
  by_cases hnb : 1023 ≤ kp.nbits
  · rw [if_pos hnb]
    simp only [hd]
    rw [if_neg (by omega)]
    have hX : (m ^ kp.e % kp.n) * (r ^ kp.e % kp.n) % kp.n = (m * r) ^ kp.e % kp.n := by
      rw [← Nat.mul_mod, ← Nat.mul_pow]
    rw [hX]
    have h1 : (m * r) ^ kp.e % kp.n = ((m * r) % kp.n) ^ kp.e % kp.n := by
      rw [← Nat.pow_mod]
    rw [h1, hn]
    have hrt := rsa_roundtrip p q kp.e dd ((m * r) % (p * q)) hpprime hqprime hpq hed
      (Nat.mod_lt _ (by omega))
    rw [hrt]
    have hmr : m * r % (p * q) = m * r := by
      rw [← hn]
      exact Nat.mod_eq_of_lt (hbl hnb)
    rw [hmr, Nat.mul_div_cancel m hr0, ← hn, Nat.mod_eq_of_lt hm]
  · rw [if_neg hnb]
    simp only [hd]
    rw [hn]
    have hrt := rsa_roundtrip p q kp.e dd m hpprime hqprime hpq hed (by omega)
    rw [hrt]

/-- C1 (amended): for every private-mode key satisfying the data-model
invariants, every valid string whose encoded integer fits below `nbits`,
and every pair of blinding draws from the sampled range, the round trip
`decrypt (encrypt s) = s` holds **provided** that on the blinded path
(`nbits ≥ 1023`) the blinded products `toc * r` do not wrap modulo `n`
(`toc * r < n` for both the draw made inside `encrypt`'s verification and
the draw made inside `decrypt`); the counterexample shows the claim fails
without this condition, because `(Y // r) mod n` only undoes the blinding
when `Y = toc * r` exactly. -/
theorem claim_C1 (kp : RsaKeyPair) (hval : ValidPrivateKey kp)
    (s : List Nat) (hs : ∀ c ∈ s, c < 10000)
    (hfit : bitcount (stringToNumber s) < kp.nbits)
    (r1 r2 : Nat)
    (hr1 : 10 ^ 46 ≤ r1 ∧ r1 ≤ 10 ^ 49) (hr2 : 10 ^ 46 ≤ r2 ∧ r2 ≤ 10 ^ 49)
    (hb1 : 1023 ≤ kp.nbits → stringToNumber s * r1 < kp.n)
    (hb2 : 1023 ≤ kp.nbits → stringToNumber s * r2 < kp.n) :
    ∃ c, rsaEncrypt kp r1 s = Except.ok c ∧
      rsaDecrypt kp r2 c = Except.ok s := by
  obtain ⟨hpub, p, q, dd, hpf, hqf, hdf, hphif, hpprime, hqprime, hpq, hn, hed, hnbits⟩ := hval
  have hr1pos : 0 < r1 := lt_of_lt_of_le (by positivity) hr1.1
  have hr2pos : 0 < r2 := lt_of_lt_of_le (by positivity) hr2.1
  have hsize : stringToNumber s < kp.n := by
    apply lt_of_size_lt_size
    rw [← bitcount_eq_size, ← bitcount_eq_size, ← hnbits]
    exact hfit
  have henc : rsaRawEncrypt kp (stringToNumber s)
      = Except.ok (stringToNumber s ^ kp.e % kp.n) := by
    rw [rsaRawEncrypt, if_neg (by omega)]
  have hdec1 := rawDecrypt_ok kp p q dd hdf hpprime hqprime hpq hn hed
    (stringToNumber s) r1 hsize hr1pos hb1
  have hdec2 := rawDecrypt_ok kp p q dd hdf hpprime hqprime hpq hn hed
    (stringToNumber s) r2 hsize hr2pos hb2
  refine ⟨stringToNumber s ^ kp.e % kp.n, ?_, ?_⟩
  · rw [rsaEncrypt]
    simp only [henc, hpub, if_pos, hdec1]
    rw [if_neg (by simp)]
  · rw [rsaDecrypt]
    simp only [hdec2]
    exact codec_roundtrip s hs

/-- Witness for (amended) C1: the toy key `kpF` (p = 61, q = 53, e = 7,
d = 1783) and the empty string, whose encoding `1421` has 11 bits, below
`nbits = 12`; the key is below the blinding threshold, so the wrap-free
side conditions hold vacuously. -/
theorem claim_C1_witness :
    ∃ c, rsaEncrypt kpF (10 ^ 46) [] = Except.ok c ∧
      rsaDecrypt kpF (10 ^ 46) c = Except.ok [] := by
  apply claim_C1 kpF
  · refine ⟨rfl, 61, 53, 1783, rfl, rfl, rfl, rfl, by norm_num, by norm_num,
      by norm_num, rfl, by decide, ?_⟩
    decide
  · intro c hc
    simp at hc
  · decide
  · exact ⟨le_rfl, by norm_num⟩
  · exact ⟨le_rfl, by norm_num⟩
  · intro h
    exact absurd h (by decide)
  · intro h
    exact absurd h (by decide)

/-- Counterexample for C1 as stated: the private-mode key built by
`RsaKeyPair(p=3, q=5, e=1, n=N0, d=1, keylength=2048)` is accepted by the
constructor (its self-test passes for the in-range draw `10^46`), has
`nbits = 1024 ≥ 1023` (blinded path) and `keylength = 2048 ≥ 1024`; the
64-character string `s0` is valid and its encoding fits below `nbits`;
`encrypt` succeeds with the in-range internal draw `10^46`; yet with the
in-range decryption draw `10^49` the blinded product wraps modulo `n` and
`decrypt` returns the empty string instead of `s0`. -/
theorem claim_C1_counterexample :
    rsaInitPrivate 3 5 1 N0 1 2048 false (10 ^ 46) = Except.ok kp0 ∧
    kp0.only_pubkey = false ∧
    1024 ≤ kp0.nbits ∧
    (∀ c ∈ s0, c < 10000) ∧
    bitcount (stringToNumber s0) < kp0.nbits ∧
    10 ^ 46 ≤ (10 ^ 49 : Nat) ∧ (10 ^ 49 : Nat) ≤ 10 ^ 49 ∧
    rsaEncrypt kp0 (10 ^ 46) s0 = Except.ok (stringToNumber s0) ∧
    rsaDecrypt kp0 (10 ^ 49) (stringToNumber s0) = Except.ok [] ∧
    ((Except.ok ([] : List Nat) : Except Err (List Nat)) ≠ Except.ok s0) := by
  refine ⟨by decide, by decide, by decide, by decide, by decide, by decide, by decide,
    by decide, by decide, by decide⟩
